import Mathlib

/-
  Verification development for the osm-construction-extractor program
  (src/osm-construction-extractor/src/main.rs).

  The program decodes an OSM PBF file into a BTreeMap of objects (pass 1,
  via the external decoder), then re-filters the store for construction
  highway ways and resolves each way's ordered node-reference list into a
  coordinate sequence (pass 2).  The definitions below are a shallow
  embedding of the data model and of pass 2; the decoder itself is out of
  scope and the object store is therefore universally quantified.

  Coordinates are modelled as pairs of integers (decimicro degrees, the
  lossless representation stored by the decoder before the f64 conversion
  in node.lon()/node.lat()); no claim performs coordinate arithmetic, so
  this representation is faithful for everything proved here.
-/

namespace OsmExtract

/-- Tag mapping: key-value pairs with unique keys (osmpbfreader Tags). -/
abbrev Tags := List (String × String)

/-- Key-presence test, as Tags::contains_key in the source. -/
def Tags.contains_key (t : Tags) (k : String) : Bool :=
  t.any (fun p => p.1 == k)

/-- Rewrites every tag value, leaving keys untouched (specification helper
used to state that the selection predicate never inspects values). -/
def Tags.mapValues (f : String → String) (t : Tags) : Tags :=
  t.map (fun p => (p.1, f p.2))

/-- A decoded OSM node: identity, tags and a coordinate pair. -/
structure Node where
  id : Int
  tags : Tags
  decimicro_lon : Int
  decimicro_lat : Int
deriving DecidableEq

/-- A decoded OSM way: identity, tags and the ordered node-reference list. -/
structure Way where
  id : Int
  tags : Tags
  nodes : List Int
deriving DecidableEq

/-- A decoded OSM relation (only its identity matters here). -/
structure Relation where
  id : Int
  tags : Tags
deriving DecidableEq

/-- The tagged union of decoded objects (osmpbfreader OsmObj). -/
inductive OsmObj where
  | node : Node → OsmObj
  | way : Way → OsmObj
  | relation : Relation → OsmObj
deriving DecidableEq

/-- The discriminated object identifier (osmpbfreader OsmId): point ids and
line ids live in separate namespaces of one numeric space. -/
inductive OsmId where
  | node : Int → OsmId
  | way : Int → OsmId
  | relation : Int → OsmId
deriving DecidableEq

/-- Strict order on identifiers, matching the derived Ord on the Rust enum:
nodes before ways before relations, numerically within a kind. -/
def OsmId.lt : OsmId → OsmId → Bool
  | .node a, .node b => decide (a < b)
  | .node _, .way _ => true
  | .node _, .relation _ => true
  | .way a, .way b => decide (a < b)
  | .way _, .relation _ => true
  | .relation a, .relation b => decide (a < b)
  | _, _ => false

/-- The identifier under which an object is stored (OsmObj::id()). -/
def OsmObj.key : OsmObj → OsmId
  | .node n => .node n.id
  | .way w => .way w.id
  | .relation r => .relation r.id

/-- OsmObj::way(): the contained way, if the object is a way. -/
def OsmObj.asWay : OsmObj → Option Way
  | .way w => some w
  | _ => none

/-- Applies Tags.mapValues to an object's tag mapping. -/
def OsmObj.mapTagValues (f : String → String) : OsmObj → OsmObj
  | .node n => .node { n with tags := Tags.mapValues f n.tags }
  | .way w => .way { w with tags := Tags.mapValues f w.tags }
  | .relation r => .relation { r with tags := Tags.mapValues f r.tags }

/-- The ObjectStore: the BTreeMap of pass 1, modelled as its ordered entry
list (key-value pairs in iteration order). -/
abbrev ObjectStore := List (OsmId × OsmObj)

/-- BTreeMap::get. -/
def store_get (s : ObjectStore) (k : OsmId) : Option OsmObj :=
  match s with
  | [] => none
  | p :: rest => if p.1 = k then some p.2 else store_get rest k

/-- BTreeMap::values, in iteration order. -/
def storeValues (s : ObjectStore) : List OsmObj :=
  s.map (fun p => p.2)

/-- Well-formedness of a store produced by the decoder: entries strictly
ascending by key (a BTreeMap invariant) and every entry keyed by its
object's own identifier. -/
def storeWF (s : ObjectStore) : Prop :=
  List.Pairwise (fun a b => OsmId.lt a.1 b.1 = true) s ∧
    ∀ p ∈ s, p.1 = OsmObj.key p.2

/-- The selection predicate of pass 1 (main.rs, the predicate closure):
true exactly on ways that have at least two node references and whose tag
mapping contains both a highway key and a construction key. -/
def predicate (obj : OsmObj) : Bool :=
  match OsmObj.asWay obj with
  | some way =>
      if 2 ≤ way.nodes.length then
        Tags.contains_key way.tags "highway" &&
          Tags.contains_key way.tags "construction"
      else false
  | none => false

/-- Specification shorthand for the tag test re-applied in pass 2. -/
def bothTags (w : Way) : Bool :=
  Tags.contains_key w.tags "highway" && Tags.contains_key w.tags "construction"

/-- The filter_map closure of pass 2 in main.rs: keeps an object exactly
when it is a way carrying both a highway key and a construction key. -/
def wayFilter : OsmObj → Option Way
  | OsmObj.way way =>
      if Tags.contains_key way.tags "highway" &&
          Tags.contains_key way.tags "construction"
      then some way else none
  | _ => none

/-- The pass-2 pre-filter (ways_to_process in main.rs): the store's values
in iteration order, restricted by wayFilter. -/
def ways_to_process (objects : ObjectStore) : List Way :=
  (storeValues objects).filterMap wayFilter

/-- A coordinate pair, as geo::Coord built from node.lon() and node.lat(). -/
structure Coord where
  x : Int
  y : Int
deriving DecidableEq

/-- The diagnostic emitted for an unresolved node reference, carrying the
node id and the owning way id (the eprintln in main.rs). -/
inductive Diagnostic where
  | unresolvedNode : Int → Int → Diagnostic
deriving DecidableEq

/-- The final output record (struct ConstructionWay in main.rs). -/
structure ConstructionWay where
  id : Int
  tags : Tags
  geometry : List Coord
deriving DecidableEq

/-- The per-way node-resolution loop of main.rs: looks each node reference
up in the store in order; on the first reference that is absent or not a
node it emits one diagnostic and stops, yielding no coordinate sequence. -/
def resolveNodes (objects : ObjectStore) (wayId : Int) :
    List Int → Option (List Coord) × List Diagnostic
  | [] => (some [], [])
  | nodeId :: rest =>
    match store_get objects (OsmId.node nodeId) with
    | some (OsmObj.node n) =>
        match resolveNodes objects wayId rest with
        | (some coords, ds) =>
            (some (⟨n.decimicro_lon, n.decimicro_lat⟩ :: coords), ds)
        | (none, ds) => (none, ds)
    | _ => (none, [Diagnostic.unresolvedNode nodeId wayId])

/-- The pass-2 main loop of main.rs: each way whose references all resolve
contributes one ConstructionWay (identity and tags copied, geometry the
resolved coordinates); a way with an unresolved reference is skipped. -/
def processWays (objects : ObjectStore) :
    List Way → List ConstructionWay × List Diagnostic
  | [] => ([], [])
  | way :: rest =>
      let r := resolveNodes objects way.id way.nodes
      let r2 := processWays objects rest
      match r.1 with
      | some coords => (⟨way.id, way.tags, coords⟩ :: r2.1, r.2 ++ r2.2)
      | none => (r2.1, r.2 ++ r2.2)

/-- The final in-memory output sequence (final_ways in main.rs). -/
def final_ways (objects : ObjectStore) : List ConstructionWay :=
  (processWays objects (ways_to_process objects)).1

/-- All diagnostics emitted during pass 2, in emission order. -/
def run_diagnostics (objects : ObjectStore) : List Diagnostic :=
  (processWays objects (ways_to_process objects)).2

/-- The decoder's fatal failure (osmpbfreader::Error, abstracted). -/
structure DecodeError where
  message : String
deriving DecidableEq

/-- What a successful run makes observable: the object count printed after
pass 1, the candidate count shown as the progress-bar length, the retained
count printed as the extraction total, the output sequence itself and the
emitted diagnostics. -/
structure RunOutput where
  totalObjects : Nat
  candidateTotal : Nat
  retainedTotal : Nat
  ways : List ConstructionWay
  diags : List Diagnostic
deriving DecidableEq

/-- main, as a function of the decoder call's outcome: a decode error
propagates immediately (the question-mark operator); otherwise pass 2 runs
over the store and the run succeeds. -/
def runMain (decoded : Except DecodeError ObjectStore) :
    Except DecodeError RunOutput :=
  match decoded with
  | Except.error e => Except.error e
  | Except.ok objects =>
      let wtp := ways_to_process objects
      let r := processWays objects wtp
      Except.ok
        { totalObjects := objects.length
          candidateTotal := wtp.length
          retainedTotal := r.1.length
          ways := r.1
          diags := r.2 }

/-- Whether a node reference resolves to a point object in the store. -/
def resolvesToPoint (objects : ObjectStore) (nodeId : Int) : Bool :=
  match store_get objects (OsmId.node nodeId) with
  | some (OsmObj.node _) => true
  | _ => false

/-- The coordinate a resolving node reference yields (specification helper;
only meaningful when resolvesToPoint holds). -/
def coordOf (objects : ObjectStore) (nodeId : Int) : Coord :=
  match store_get objects (OsmId.node nodeId) with
  | some (OsmObj.node n) => ⟨n.decimicro_lon, n.decimicro_lat⟩
  | _ => ⟨0, 0⟩

/-- Builds the output record a fully resolving way yields. -/
def buildWay (objects : ObjectStore) (w : Way) : ConstructionWay :=
  ⟨w.id, w.tags, w.nodes.map (coordOf objects)⟩

/-! A state-passing view of pass 2, used to express that the pass leaves
the ObjectStore untouched: every store access the source performs is one
of the two read operations below, and the pass's final state is proved
equal to its initial state. -/

/-- Computations threading the ObjectStore as explicit state. -/
def StoreM (α : Type) : Type := ObjectStore → α × ObjectStore

/-- Returns a value without touching the store. -/
def StoreM.pure {α : Type} (a : α) : StoreM α := fun s => (a, s)

/-- Sequences two stateful computations. -/
def StoreM.bind {α β : Type} (m : StoreM α) (f : α → StoreM β) : StoreM β :=
  fun s =>
    let r := m s
    f r.1 r.2

/-- The BTreeMap::get read access. -/
def StoreM.getObj (k : OsmId) : StoreM (Option OsmObj) :=
  fun s => (store_get s k, s)

/-- The BTreeMap::values read access. -/
def StoreM.getValues : StoreM (List OsmObj) :=
  fun s => (storeValues s, s)

/-- The node-resolution loop of main.rs with its store accesses explicit. -/
def resolveNodesM (wayId : Int) :
    List Int → StoreM (Option (List Coord) × List Diagnostic)
  | [] => StoreM.pure (some [], [])
  | nodeId :: rest =>
      StoreM.bind (StoreM.getObj (OsmId.node nodeId)) (fun o =>
        match o with
        | some (OsmObj.node n) =>
            StoreM.bind (resolveNodesM wayId rest) (fun r =>
              match r with
              | (some coords, ds) =>
                  StoreM.pure
                    (some (⟨n.decimicro_lon, n.decimicro_lat⟩ :: coords), ds)
              | (none, ds) => StoreM.pure (none, ds))
        | _ => StoreM.pure (none, [Diagnostic.unresolvedNode nodeId wayId]))

/-- The pass-2 main loop with its store accesses explicit. -/
def processWaysM : List Way → StoreM (List ConstructionWay × List Diagnostic)
  | [] => StoreM.pure ([], [])
  | way :: rest =>
      StoreM.bind (resolveNodesM way.id way.nodes) (fun r =>
        StoreM.bind (processWaysM rest) (fun r2 =>
          match r.1 with
          | some coords => StoreM.pure (⟨way.id, way.tags, coords⟩ :: r2.1, r.2 ++ r2.2)
          | none => StoreM.pure (r2.1, r.2 ++ r2.2)))

/-- All of pass 2 (the Restructurer) as a stateful computation over the
ObjectStore handed over by pass 1. -/
def restructureM : StoreM (List ConstructionWay × List Diagnostic) :=
  StoreM.bind StoreM.getValues (fun vals =>
    processWaysM (vals.filterMap wayFilter))

/-! Concrete sample data used by the witness theorems: three nodes, one
fully resolving construction-highway way, one way with a dangling node
reference, one way lacking the construction key, and one single-node way
carrying both keys. -/

/-- Sample node 1. -/
def sampleNode1 : Node := ⟨1, [], 100, 200⟩

/-- Sample node 2. -/
def sampleNode2 : Node := ⟨2, [], 300, 400⟩

/-- Sample node 5. -/
def sampleNode5 : Node := ⟨5, [], 500, 600⟩

/-- A construction-highway way whose two references both resolve. -/
def sampleWay3 : Way :=
  ⟨3, [("highway", "residential"), ("construction", "minor")], [1, 2]⟩

/-- A construction-highway way whose second reference is dangling. -/
def sampleWay4 : Way :=
  ⟨4, [("highway", "residential"), ("construction", "minor")], [1, 7]⟩

/-- A way carrying only the highway key. -/
def sampleWay6 : Way := ⟨6, [("highway", "residential")], [1, 2]⟩

/-- A single-reference way carrying both keys. -/
def sampleWay8 : Way :=
  ⟨8, [("highway", "residential"), ("construction", "minor")], [5]⟩

/-- A well-formed sample store holding the objects above in key order. -/
def sampleStore : ObjectStore :=
  [ (OsmId.node 1, OsmObj.node sampleNode1)
  , (OsmId.node 2, OsmObj.node sampleNode2)
  , (OsmId.node 5, OsmObj.node sampleNode5)
  , (OsmId.way 3, OsmObj.way sampleWay3)
  , (OsmId.way 4, OsmObj.way sampleWay4)
  , (OsmId.way 6, OsmObj.way sampleWay6)
  , (OsmId.way 8, OsmObj.way sampleWay8) ]

/-! Helper lemmas about the embedded definitions. -/

theorem resolvesToPoint_elim (objects : ObjectStore) (nid : Int)
    (h : resolvesToPoint objects nid = true) :
    ∃ n : Node, store_get objects (OsmId.node nid) = some (OsmObj.node n) := by
  unfold resolvesToPoint at h
  cases hg : store_get objects (OsmId.node nid) with
  | none => rw [hg] at h; exact Bool.noConfusion h
  | some obj =>
    cases obj with
    | node n => exact ⟨n, rfl⟩
    | way w => rw [hg] at h; exact Bool.noConfusion h
    | relation r => rw [hg] at h; exact Bool.noConfusion h

theorem resolvesToPoint_node (objects : ObjectStore) (nid : Int) (n : Node)
    (hg : store_get objects (OsmId.node nid) = some (OsmObj.node n)) :
    resolvesToPoint objects nid = true := by
  unfold resolvesToPoint
  rw [hg]

theorem coordOf_node (objects : ObjectStore) (nid : Int) (n : Node)
    (hg : store_get objects (OsmId.node nid) = some (OsmObj.node n)) :
    coordOf objects nid = ⟨n.decimicro_lon, n.decimicro_lat⟩ := by
  unfold coordOf
  rw [hg]

theorem resolveNodes_all (objects : ObjectStore) (wayId : Int) (ns : List Int)
    (h : ∀ nid ∈ ns, resolvesToPoint objects nid = true) :
    resolveNodes objects wayId ns = (some (ns.map (coordOf objects)), []) := by
  induction ns with
  | nil => rfl
  | cons a rest ih =>
      obtain ⟨n, hg⟩ := resolvesToPoint_elim objects a (h a (List.mem_cons_self a rest))
      have hrest := ih (fun nid hn => h nid (List.mem_cons_of_mem a hn))
      unfold resolveNodes
      rw [hg, hrest, List.map_cons, coordOf_node objects a n hg]

theorem resolveNodes_fst_none (objects : ObjectStore) (wayId : Int) (ns : List Int)
    (h : ns.all (resolvesToPoint objects) = false) :
    (resolveNodes objects wayId ns).1 = none := by
  induction ns with
  | nil => exact Bool.noConfusion h
  | cons a rest ih =>
      rw [List.all_cons] at h
      unfold resolveNodes
      cases hg : store_get objects (OsmId.node a) with
      | none => rfl
      | some obj =>
        cases obj with
        | node n =>
            have ha : resolvesToPoint objects a = true :=
              resolvesToPoint_node objects a n hg
            rw [ha, Bool.true_and] at h
            have hnone := ih h
            cases hr : resolveNodes objects wayId rest with
            | mk fst snd =>
                rw [hr] at hnone
                simp only at hnone
                subst hnone
                rfl
        | way w => rfl
        | relation r => rfl

theorem processWays_fst (objects : ObjectStore) (ws : List Way) :
    (processWays objects ws).1 =
      (ws.filter (fun w => w.nodes.all (resolvesToPoint objects))).map
        (buildWay objects) := by
  induction ws with
  | nil => rfl
  | cons w rest ih =>
      cases hall : w.nodes.all (resolvesToPoint objects) with
      | true =>
          have hres := resolveNodes_all objects w.id w.nodes
            (fun nid hn => List.all_eq_true.mp hall nid hn)
          unfold processWays
          rw [hres]
          simp only [List.filter_cons, hall, if_pos, List.map_cons]
          rw [ih]
          rfl
      | false =>
          have hnone := resolveNodes_fst_none objects w.id w.nodes hall
          unfold processWays
          cases hr : resolveNodes objects w.id w.nodes with
          | mk fst snd =>
              rw [hr] at hnone
              simp only at hnone
              subst hnone
              simp only [List.filter_cons, hall]
              rw [ih]
              rfl

theorem wayFilter_way (w : Way) :
    wayFilter (OsmObj.way w) =
      if (Tags.contains_key w.tags "highway" &&
          Tags.contains_key w.tags "construction") = true
      then some w else none := rfl

theorem wayFilter_eq_some (obj : OsmObj) (w : Way) :
    wayFilter obj = some w ↔ obj = OsmObj.way w ∧ bothTags w = true := by
  constructor
  · intro h
    cases obj with
    | node n => exact Option.noConfusion h
    | relation r => exact Option.noConfusion h
    | way w2 =>
        rw [wayFilter_way] at h
        by_cases hc : (Tags.contains_key w2.tags "highway" &&
            Tags.contains_key w2.tags "construction") = true
        · rw [if_pos hc] at h
          obtain rfl := Option.some.inj h
          exact ⟨rfl, hc⟩
        · rw [if_neg hc] at h
          exact Option.noConfusion h
  · rintro ⟨rfl, hb⟩
    unfold bothTags at hb
    rw [wayFilter_way, if_pos hb]

theorem mem_ways_to_process (objects : ObjectStore) (w : Way) :
    w ∈ ways_to_process objects ↔
      OsmObj.way w ∈ storeValues objects ∧ bothTags w = true := by
  unfold ways_to_process
  rw [List.mem_filterMap]
  constructor
  · rintro ⟨obj, hmem, hf⟩
    obtain ⟨rfl, hb⟩ := (wayFilter_eq_some obj w).mp hf
    exact ⟨hmem, hb⟩
  · rintro ⟨hmem, hb⟩
    exact ⟨OsmObj.way w, hmem, (wayFilter_eq_some (OsmObj.way w) w).mpr ⟨rfl, hb⟩⟩

theorem OsmId.lt_irrefl (k : OsmId) : OsmId.lt k k = false := by
  cases k <;> simp [OsmId.lt]

theorem OsmId.lt_way_way (a b : Int) (h : OsmId.lt (OsmId.way a) (OsmId.way b) = true) :
    a < b := by
  unfold OsmId.lt at h
  exact of_decide_eq_true h

theorem store_entry_unique (s : ObjectStore)
    (hs : List.Pairwise (fun a b => OsmId.lt a.1 b.1 = true) s)
    (k : OsmId) (a b : OsmObj) (ha : (k, a) ∈ s) (hb : (k, b) ∈ s) : a = b := by
  induction s with
  | nil => cases ha
  | cons p rest ih =>
      obtain ⟨hhead, htail⟩ := List.pairwise_cons.mp hs
      rcases List.mem_cons.mp ha with ha1 | ha2
      · rcases List.mem_cons.mp hb with hb1 | hb2
        · have hab : (k, a) = (k, b) := ha1.trans hb1.symm
          exact (Prod.ext_iff.mp hab).2
        · exfalso
          have := hhead (k, b) hb2
          rw [← ha1] at this
          simp only at this
          rw [OsmId.lt_irrefl] at this
          exact Bool.noConfusion this
      · rcases List.mem_cons.mp hb with hb1 | hb2
        · exfalso
          have := hhead (k, a) ha2
          rw [← hb1] at this
          simp only at this
          rw [OsmId.lt_irrefl] at this
          exact Bool.noConfusion this
        · exact ih htail ha2 hb2

theorem mem_storeValues (s : ObjectStore) (obj : OsmObj) :
    obj ∈ storeValues s ↔ ∃ k, (k, obj) ∈ s := by
  unfold storeValues
  rw [List.mem_map]
  constructor
  · rintro ⟨p, hp, rfl⟩
    exact ⟨p.1, hp⟩
  · rintro ⟨k, hk⟩
    exact ⟨(k, obj), hk, rfl⟩

theorem wtp_ids_sublist (s : ObjectStore)
    (hkey : ∀ p ∈ s, p.1 = OsmObj.key p.2) :
    List.Sublist ((ways_to_process s).map (fun w => OsmId.way w.id))
      (s.map (fun p => p.1)) := by
  induction s with
  | nil => exact List.Sublist.refl []
  | cons p rest ih =>
      have hrest := ih (fun q hq => hkey q (List.mem_cons_of_mem p hq))
      have hp : p.1 = OsmObj.key p.2 := hkey p (List.mem_cons_self p rest)
      unfold ways_to_process storeValues
      rw [List.map_cons, List.filterMap_cons]
      cases hf : wayFilter p.2 with
      | none =>
          rw [List.map_cons]
          exact List.Sublist.cons p.1 hrest
      | some w =>
          obtain ⟨hobj, hb⟩ := (wayFilter_eq_some p.2 w).mp hf
          rw [List.map_cons, List.map_cons]
          have hkw : p.1 = OsmId.way w.id := by
            rw [hp, hobj]
            rfl
          rw [hkw]
          exact List.Sublist.cons₂ (OsmId.way w.id) hrest

theorem length_filter_add_not (l : List α) (p : α → Bool) :
    (l.filter p).length + (l.filter (fun a => !(p a))).length = l.length := by
  induction l with
  | nil => rfl
  | cons a rest ih =>
      cases hp : p a <;> simp [List.filter_cons, hp] <;> omega

theorem way_id_unique (s : ObjectStore) (hwf : storeWF s) (w w2 : Way)
    (hw : OsmObj.way w ∈ storeValues s) (hw2 : OsmObj.way w2 ∈ storeValues s)
    (hid : w.id = w2.id) : w = w2 := by
  obtain ⟨k, hk⟩ := (mem_storeValues s (OsmObj.way w)).mp hw
  obtain ⟨k2, hk2⟩ := (mem_storeValues s (OsmObj.way w2)).mp hw2
  have e1 : k = OsmId.way w.id := hwf.2 (k, OsmObj.way w) hk
  have e2 : k2 = OsmId.way w2.id := hwf.2 (k2, OsmObj.way w2) hk2
  have ekk : k = k2 := by rw [e1, e2, hid]
  rw [ekk] at hk
  have := store_entry_unique s hwf.1 k2 (OsmObj.way w) (OsmObj.way w2) hk hk2
  exact OsmObj.way.inj this

theorem final_ways_source (objects : ObjectStore) (cw : ConstructionWay)
    (h : cw ∈ final_ways objects) :
    ∃ w, w ∈ ways_to_process objects ∧
      w.nodes.all (resolvesToPoint objects) = true ∧ cw = buildWay objects w := by
  unfold final_ways at h
  rw [processWays_fst, List.mem_map] at h
  obtain ⟨w, hw, rfl⟩ := h
  rw [List.mem_filter] at hw
  exact ⟨w, hw.1, hw.2, rfl⟩

theorem buildWay_mem_final (objects : ObjectStore) (w : Way)
    (hw : w ∈ ways_to_process objects)
    (hall : w.nodes.all (resolvesToPoint objects) = true) :
    buildWay objects w ∈ final_ways objects := by
  unfold final_ways
  rw [processWays_fst, List.mem_map]
  exact ⟨w, List.mem_filter.mpr ⟨hw, hall⟩, rfl⟩

theorem resolveNodesM_run (wayId : Int) (ns : List Int) (s : ObjectStore) :
    resolveNodesM wayId ns s = (resolveNodes s wayId ns, s) := by
  induction ns with
  | nil => rfl
  | cons a rest ih =>
      unfold resolveNodesM resolveNodes StoreM.bind StoreM.getObj
      simp only
      cases store_get s (OsmId.node a) with
      | none => rfl
      | some obj =>
        cases obj with
        | node n =>
            simp only [ih]
            cases resolveNodes s wayId rest with
            | mk fst snd =>
                cases fst with
                | none => rfl
                | some coords => rfl
        | way w => rfl
        | relation r => rfl

theorem processWaysM_run (ws : List Way) (s : ObjectStore) :
    processWaysM ws s = (processWays s ws, s) := by
  induction ws with
  | nil => rfl
  | cons w rest ih =>
      unfold processWaysM processWays StoreM.bind
      simp only [resolveNodesM_run, ih]
      cases resolveNodes s w.id w.nodes with
      | mk fst snd =>
          cases fst with
          | none => rfl
          | some coords => rfl

theorem contains_key_mapValues (f : String → String) (t : Tags) (k : String) :
    Tags.contains_key (Tags.mapValues f t) k = Tags.contains_key t k := by
  unfold Tags.contains_key Tags.mapValues
  rw [List.any_map]
  rfl

theorem resolveNodes_break (objects : ObjectStore) (wayId : Int)
    (pre post : List Int) (nid : Int)
    (hpre : ∀ x ∈ pre, resolvesToPoint objects x = true)
    (hnid : resolvesToPoint objects nid = false) :
    resolveNodes objects wayId (pre ++ nid :: post) =
      (none, [Diagnostic.unresolvedNode nid wayId]) := by
  induction pre with
  | nil =>
      simp only [List.nil_append]
      unfold resolveNodes
      unfold resolvesToPoint at hnid
      cases hg : store_get objects (OsmId.node nid) with
      | none => rfl
      | some obj =>
        cases obj with
        | node n => rw [hg] at hnid; exact Bool.noConfusion hnid
        | way w => rfl
        | relation r => rfl
  | cons a rest ih =>
      obtain ⟨n, hg⟩ :=
        resolvesToPoint_elim objects a (hpre a (List.mem_cons_self a rest))
      have htail := ih (fun x hx => hpre x (List.mem_cons_of_mem a hx))
      simp only [List.cons_append]
      unfold resolveNodes
      rw [hg, htail]

/-! The claims. -/

/-- Claim C1: for every ConstructionWay in the final output, its coordinate
sequence length equals the node-reference list length of its source way,
and a way with at least one unresolved reference contributes nothing to the
output at all: no partial or truncated geometry is ever emitted. -/
theorem claim_c1 (objects : ObjectStore) (hwf : storeWF objects) :
    (∀ cw ∈ final_ways objects, ∃ w ∈ ways_to_process objects,
        cw.id = w.id ∧ cw.geometry.length = w.nodes.length) ∧
    (∀ w ∈ ways_to_process objects,
        (∃ nid ∈ w.nodes, resolvesToPoint objects nid = false) →
        ∀ cw ∈ final_ways objects, cw.id ≠ w.id) := by
  constructor
  · intro cw hcw
    obtain ⟨w, hw, hall, rfl⟩ := final_ways_source objects cw hcw
    exact ⟨w, hw, rfl, List.length_map w.nodes (coordOf objects)⟩
  · intro w hw hbad cw hcw hid
    obtain ⟨w2, hw2, hall2, rfl⟩ := final_ways_source objects cw hcw
    have hmem2 := (mem_ways_to_process objects w2).mp hw2
    have hmem := (mem_ways_to_process objects w).mp hw
    have heq : w2 = w := way_id_unique objects hwf w2 w hmem2.1 hmem.1 hid
    subst heq
    obtain ⟨nid, hn, hfalse⟩ := hbad
    have htrue := List.all_eq_true.mp hall2 nid hn
    rw [hfalse] at htrue
    exact Bool.noConfusion htrue

/-- Claim C2: the selection predicate holds exactly on ways with at least
two node references whose tags contain both a highway key and a
construction key; tag values are never inspected (rewriting every value
leaves the predicate unchanged), and non-way objects or short ways are
rejected regardless of their tags. -/
theorem claim_c2 :
    (∀ obj : OsmObj, predicate obj = true ↔
        ∃ w : Way, OsmObj.asWay obj = some w ∧ 2 ≤ w.nodes.length ∧
          Tags.contains_key w.tags "highway" = true ∧
          Tags.contains_key w.tags "construction" = true) ∧
    (∀ (f : String → String) (obj : OsmObj),
        predicate (OsmObj.mapTagValues f obj) = predicate obj) := by
  constructor
  · intro obj
    cases obj with
    | node n => simp [predicate, OsmObj.asWay]
    | relation r => simp [predicate, OsmObj.asWay]
    | way w =>
        by_cases hlen : 2 ≤ w.nodes.length
        · simp [predicate, OsmObj.asWay, hlen, Bool.and_eq_true]
        · simp [predicate, OsmObj.asWay, hlen]
  · intro f obj
    cases obj with
    | node n => rfl
    | relation r => rfl
    | way w =>
        simp [predicate, OsmObj.mapTagValues, OsmObj.asWay,
          contains_key_mapValues]

/-- Claim C3: a retained way whose ordered references all resolve to
points yields an output record whose coordinate sequence is exactly the
references' coordinates, in reference order. -/
theorem claim_c3 (objects : ObjectStore) (w : Way)
    (hw : w ∈ ways_to_process objects)
    (hres : ∀ nid ∈ w.nodes, resolvesToPoint objects nid = true) :
    ∃ cw ∈ final_ways objects, cw.id = w.id ∧ cw.tags = w.tags ∧
      cw.geometry = w.nodes.map (coordOf objects) := by
  have hall : w.nodes.all (resolvesToPoint objects) = true :=
    List.all_eq_true.mpr hres
  exact ⟨buildWay objects w, buildWay_mem_final objects w hw hall,
    rfl, rfl, rfl⟩

/-- Claim C4: when a retained way's reference list is a resolving prefix
followed by one unresolved reference, the pass emits exactly one diagnostic
naming that reference and the owning way, ignores the remaining references,
drops the way from the output and continues with the subsequent ways. -/
theorem claim_c4 (objects : ObjectStore) (w : Way) (rest : List Way)
    (pre post : List Int) (nid : Int)
    (hnodes : w.nodes = pre ++ nid :: post)
    (hpre : ∀ x ∈ pre, resolvesToPoint objects x = true)
    (hnid : resolvesToPoint objects nid = false) :
    resolveNodes objects w.id w.nodes =
      (none, [Diagnostic.unresolvedNode nid w.id]) ∧
    processWays objects (w :: rest) =
      ((processWays objects rest).1,
        Diagnostic.unresolvedNode nid w.id :: (processWays objects rest).2) := by
  have hres : resolveNodes objects w.id w.nodes =
      (none, [Diagnostic.unresolvedNode nid w.id]) := by
    rw [hnodes]
    exact resolveNodes_break objects w.id pre post nid hpre hnid
  refine ⟨hres, ?_⟩
  conv_lhs => rw [processWays.eq_2, hres]
  rfl

/-- Claim C5: the final output sequence lists its records in the iteration
order of the ObjectStore, which for a well-formed store is ascending
identifier order: the output's way identifiers form an in-order
subsequence of the store's keys and are strictly increasing. -/
theorem claim_c5 (objects : ObjectStore) (hwf : storeWF objects) :
    List.Sublist ((final_ways objects).map (fun cw => OsmId.way cw.id))
      (objects.map (fun p => p.1)) ∧
    List.Pairwise (fun a b => a.id < b.id) (final_ways objects) := by
  have hsub : List.Sublist
      ((ways_to_process objects).map (fun w => OsmId.way w.id))
      (objects.map (fun p => p.1)) := wtp_ids_sublist objects hwf.2
  have hfw : List.Sublist
      ((final_ways objects).map (fun cw => OsmId.way cw.id))
      ((ways_to_process objects).map (fun w => OsmId.way w.id)) := by
    unfold final_ways
    rw [processWays_fst, List.map_map]
    exact List.Sublist.map _ (List.filter_sublist _)
  refine ⟨hfw.trans hsub, ?_⟩
  have hkeys : List.Pairwise (fun a b => OsmId.lt a b = true)
      (objects.map (fun p => p.1)) := by
    rw [List.pairwise_map]
    exact hwf.1
  have h2 : List.Pairwise (fun a b => OsmId.lt a b = true)
      ((final_ways objects).map (fun cw => OsmId.way cw.id)) :=
    List.Pairwise.sublist (hfw.trans hsub) hkeys
  rw [List.pairwise_map] at h2
  exact h2.imp (fun h => OsmId.lt_way_way _ _ h)

/-- Claim C6: pass 2 retains exactly the store entries that are ways
carrying both a highway key and a construction key, and a way in the store
lacking either key appears in neither the retained list nor the output. -/
theorem claim_c6 (objects : ObjectStore) (hwf : storeWF objects) :
    (∀ w : Way, w ∈ ways_to_process objects ↔
        OsmObj.way w ∈ storeValues objects ∧ bothTags w = true) ∧
    (∀ w : Way, OsmObj.way w ∈ storeValues objects → bothTags w = false →
        w ∉ ways_to_process objects ∧
          ∀ cw ∈ final_ways objects, cw.id ≠ w.id) := by
  refine ⟨fun w => mem_ways_to_process objects w, ?_⟩
  intro w hmem hfalse
  constructor
  · intro hin
    have htrue := ((mem_ways_to_process objects w).mp hin).2
    rw [hfalse] at htrue
    exact Bool.noConfusion htrue
  · intro cw hcw hid
    obtain ⟨w2, hw2, hall2, rfl⟩ := final_ways_source objects cw hcw
    have hmem2 := (mem_ways_to_process objects w2).mp hw2
    have heq : w2 = w := way_id_unique objects hwf w2 w hmem2.1 hmem hid
    rw [heq, hfalse] at hmem2
    exact Bool.noConfusion hmem2.2

/-- Claim C7: a successful run makes both the retained count and the
candidate count observable, and their difference is exactly the number of
candidate ways dropped for an unresolved reference. -/
theorem claim_c7 (objects : ObjectStore) :
    ∃ out : RunOutput, runMain (Except.ok objects) = Except.ok out ∧
      out.ways = final_ways objects ∧
      out.retainedTotal = out.ways.length ∧
      out.candidateTotal = (ways_to_process objects).length ∧
      out.candidateTotal = out.retainedTotal +
        ((ways_to_process objects).filter
          (fun w => !(w.nodes.all (resolvesToPoint objects)))).length := by
  refine ⟨_, rfl, rfl, rfl, rfl, ?_⟩
  show (ways_to_process objects).length =
    (processWays objects (ways_to_process objects)).1.length + _
  rw [processWays_fst, List.length_map]
  rw [← length_filter_add_not (ways_to_process objects)
    (fun w => w.nodes.all (resolvesToPoint objects))]

/-- Claim C8: a decode failure propagates unchanged out of the run and no
output is produced, while an empty store is a successful run with an empty
output sequence and no diagnostics. -/
theorem claim_c8 :
    (∀ e : DecodeError, runMain (Except.error e) = Except.error e) ∧
    (∃ out : RunOutput, runMain (Except.ok ([] : ObjectStore)) = Except.ok out ∧
      out.ways = [] ∧ out.retainedTotal = 0 ∧ out.diags = []) :=
  ⟨fun _ => rfl, ⟨_, rfl, rfl, rfl, rfl⟩⟩

/-- Claim C9: the Restructurer never mutates the ObjectStore: running all
of pass 2 as a stateful computation over the store returns the store
unchanged, while computing exactly the output sequence and diagnostics of
the pass. -/
theorem claim_c9 (objects : ObjectStore) :
    (restructureM objects).2 = objects ∧
    (restructureM objects).1 = (final_ways objects, run_diagnostics objects) := by
  have h : restructureM objects =
      (processWays objects (ways_to_process objects), objects) :=
    processWaysM_run (ways_to_process objects) objects
  rw [h]
  exact ⟨rfl, rfl⟩

/-- Claim C10: the pass-2 re-filter does not re-check the two-reference
minimum: a way in the store with both tag keys but fewer than two
references, all of which resolve, still yields an output record whose
coordinate sequence has fewer than two coordinates. -/
theorem claim_c10 (objects : ObjectStore) (w : Way)
    (hmem : OsmObj.way w ∈ storeValues objects)
    (htags : bothTags w = true)
    (hlen : w.nodes.length < 2)
    (hres : ∀ nid ∈ w.nodes, resolvesToPoint objects nid = true) :
    ∃ cw ∈ final_ways objects, cw.id = w.id ∧
      cw.geometry.length = w.nodes.length ∧ cw.geometry.length < 2 := by
  have hw : w ∈ ways_to_process objects :=
    (mem_ways_to_process objects w).mpr ⟨hmem, htags⟩
  have hall : w.nodes.all (resolvesToPoint objects) = true :=
    List.all_eq_true.mpr hres
  have hglen : (buildWay objects w).geometry.length = w.nodes.length :=
    List.length_map w.nodes (coordOf objects)
  exact ⟨buildWay objects w, buildWay_mem_final objects w hw hall,
    rfl, hglen, hglen ▸ hlen⟩

/-- Witness for claim C1 on the concrete sample store. -/
theorem claim_c1_witness :
    (∀ cw ∈ final_ways sampleStore, ∃ w ∈ ways_to_process sampleStore,
        cw.id = w.id ∧ cw.geometry.length = w.nodes.length) ∧
    (∀ w ∈ ways_to_process sampleStore,
        (∃ nid ∈ w.nodes, resolvesToPoint sampleStore nid = false) →
        ∀ cw ∈ final_ways sampleStore, cw.id ≠ w.id) :=
  claim_c1 sampleStore (by unfold storeWF; decide)

/-- Witness for claim C3 on the concrete sample store: sampleWay3's two
references both resolve, so its record appears with both coordinates in
order. -/
theorem claim_c3_witness :
    ∃ cw ∈ final_ways sampleStore, cw.id = sampleWay3.id ∧
      cw.tags = sampleWay3.tags ∧
      cw.geometry = sampleWay3.nodes.map (coordOf sampleStore) :=
  claim_c3 sampleStore sampleWay3 (by decide) (by decide)

/-- Witness for claim C4 on the concrete sample store: sampleWay4's first
reference resolves and its second reference 7 is dangling. -/
theorem claim_c4_witness :
    resolveNodes sampleStore sampleWay4.id sampleWay4.nodes =
      (none, [Diagnostic.unresolvedNode 7 sampleWay4.id]) ∧
    processWays sampleStore (sampleWay4 :: [sampleWay3]) =
      ((processWays sampleStore [sampleWay3]).1,
        Diagnostic.unresolvedNode 7 sampleWay4.id ::
          (processWays sampleStore [sampleWay3]).2) :=
  claim_c4 sampleStore sampleWay4 [sampleWay3] [1] [] 7
    (by decide) (by decide) (by decide)

/-- Witness for claim C5 on the concrete sample store. -/
theorem claim_c5_witness :
    List.Sublist ((final_ways sampleStore).map (fun cw => OsmId.way cw.id))
      (sampleStore.map (fun p => p.1)) ∧
    List.Pairwise (fun a b => a.id < b.id) (final_ways sampleStore) :=
  claim_c5 sampleStore (by unfold storeWF; decide)

/-- Witness for claim C6 on the concrete sample store. -/
theorem claim_c6_witness :
    (∀ w : Way, w ∈ ways_to_process sampleStore ↔
        OsmObj.way w ∈ storeValues sampleStore ∧ bothTags w = true) ∧
    (∀ w : Way, OsmObj.way w ∈ storeValues sampleStore → bothTags w = false →
        w ∉ ways_to_process sampleStore ∧
          ∀ cw ∈ final_ways sampleStore, cw.id ≠ w.id) :=
  claim_c6 sampleStore (by unfold storeWF; decide)

/-- Witness for claim C10 on the concrete sample store: sampleWay8 carries
both keys but has a single, resolving reference, and still yields an
output record with one coordinate. -/
theorem claim_c10_witness :
    ∃ cw ∈ final_ways sampleStore, cw.id = sampleWay8.id ∧
      cw.geometry.length = sampleWay8.nodes.length ∧ cw.geometry.length < 2 :=
  claim_c10 sampleStore sampleWay8 (by decide) (by decide) (by decide) (by decide)

end OsmExtract
